import Mathlib

/-!
Verification of the numerical kernel set in ext/util/_util.c (thermotools).

The C code operates in place on caller-owned buffers of IEEE-754 doubles and
C ints.  The shallow embedding models a double array as a Lean list over a
linear order (instantiated at the exact rationals for the real-arithmetic
kernels, and at WithBot of the rationals - rationals extended with a bottom
element standing for -infinity - for the log-sum-exp family), with C array
reads and writes modelled by the total functions idx and setIdx over Int
indices.  The transcendental functions exp and log are abstract parameters
of the log-sum-exp definitions.  In-place mutation is modelled by threading
the list through each definition and returning it next to the scalar result.
-/

namespace Thermo

/-- Read a C array cell a[i]; out-of-range reads (undefined behaviour in C,
never exercised under the caller contracts proved here) yield a default. -/
def idx {α : Type} [Inhabited α] (a : List α) (i : Int) : α :=
  if h : 0 ≤ i ∧ i.toNat < a.length then a.get ⟨i.toNat, h.2⟩ else default

/-- Write a C array cell a[i] = v; out-of-range writes (undefined behaviour
in C, never exercised under the caller contracts proved here) are dropped. -/
def setIdx {α : Type} (a : List α) (i : Int) (v : α) : List α :=
  if 0 ≤ i then a.set i.toNat v else a

/-- The three-assignment double swap used twice in _mixed_sort:
swap = array[l]; array[l] = array[r]; array[r] = swap. -/
def swapIdx {α : Type} [Inhabited α] (a : List α) (i j : Int) : List α :=
  setIdx (setIdx a i (idx a j)) j (idx a i)

variable {α : Type} [Inhabited α]

theorem length_setIdx (a : List α) (i : Int) (v : α) :
    (setIdx a i v).length = a.length := by
  unfold setIdx
  split <;> simp

theorem idx_setIdx_eq (a : List α) (i : Int) (v : α)
    (h0 : 0 ≤ i) (h : i < (a.length : Int)) : idx (setIdx a i v) i = v := by
  have hn : i.toNat < a.length := by omega
  unfold idx setIdx
  rw [if_pos h0]
  rw [dif_pos ⟨h0, by simpa using hn⟩]
  simp [List.get_eq_getElem, List.getElem_set_self]

theorem idx_setIdx_ne (a : List α) (i j : Int) (v : α) (h : j ≠ i) :
    idx (setIdx a i v) j = idx a j := by
  unfold idx setIdx
  by_cases h0 : 0 ≤ i
  · rw [if_pos h0]
    by_cases hj : 0 ≤ j ∧ j.toNat < a.length
    · have hj' : 0 ≤ j ∧ j.toNat < (a.set i.toNat v).length := by simpa using hj
      rw [dif_pos hj', dif_pos hj]
      have hne : i.toNat ≠ j.toNat := by omega
      simp [List.get_eq_getElem, List.getElem_set_ne hne]
    · have hj' : ¬ (0 ≤ j ∧ j.toNat < (a.set i.toNat v).length) := by simpa using hj
      rw [dif_neg hj', dif_neg hj]
  · rw [if_neg h0]

theorem length_swapIdx (a : List α) (i j : Int) :
    (swapIdx a i j).length = a.length := by
  unfold swapIdx
  rw [length_setIdx, length_setIdx]

theorem idx_swapIdx_left (a : List α) (i j : Int)
    (hi0 : 0 ≤ i) (hi : i < (a.length : Int)) (hj0 : 0 ≤ j) (hj : j < (a.length : Int)) :
    idx (swapIdx a i j) i = idx a j := by
  unfold swapIdx
  by_cases hij : i = j
  · subst hij
    rw [idx_setIdx_eq _ _ _ hi0 (by rw [length_setIdx]; exact hi)]
  · rw [idx_setIdx_ne _ _ _ _ hij, idx_setIdx_eq _ _ _ hi0 hi]

theorem idx_swapIdx_right (a : List α) (i j : Int)
    (hi0 : 0 ≤ i) (hi : i < (a.length : Int)) (hj0 : 0 ≤ j) (hj : j < (a.length : Int)) :
    idx (swapIdx a i j) j = idx a i := by
  unfold swapIdx
  rw [idx_setIdx_eq _ _ _ hj0 (by rw [length_setIdx]; exact hj)]

theorem idx_swapIdx_other (a : List α) (i j k : Int) (hki : k ≠ i) (hkj : k ≠ j) :
    idx (swapIdx a i j) k = idx a k := by
  unfold swapIdx
  rw [idx_setIdx_ne _ _ _ _ hkj, idx_setIdx_ne _ _ _ _ hki]

/-- The inclusive index range [L, R] as a list of Int indices. -/
def irange (L R : Int) : List Int :=
  (List.range (R + 1 - L).toNat).map (fun n : Nat => L + (n : Int))

/-- The multiset of values held at positions L..R of the array: the object
that an in-place sort of that range must preserve. -/
def msl (a : List α) (L R : Int) : Multiset α :=
  ((irange L R).map (idx a) : List α)

/-- Positions L..R of the array are in non-decreasing order. -/
def sortedOn [LinearOrder α] (a : List α) (L R : Int) : Prop :=
  ∀ i j : Int, L ≤ i → i ≤ j → j ≤ R → idx a i ≤ idx a j

theorem mem_irange (L R k : Int) : k ∈ irange L R ↔ L ≤ k ∧ k ≤ R := by
  unfold irange
  simp only [List.mem_map, List.mem_range]
  constructor
  · rintro ⟨m, hm, rfl⟩
    omega
  · intro h
    refine ⟨(k - L).toNat, by omega, by omega⟩

theorem irange_empty (L R : Int) (h : R < L) : irange L R = [] := by
  unfold irange
  have : (R + 1 - L).toNat = 0 := by omega
  rw [this]
  simp

theorem irange_eq_cons (L R : Int) (h : L ≤ R) : irange L R = L :: irange (L + 1) R := by
  unfold irange
  have h1 : (R + 1 - L).toNat = (R + 1 - (L + 1)).toNat + 1 := by omega
  rw [h1, List.range_succ_eq_map]
  simp only [List.map_cons, List.map_map]
  refine List.cons_eq_cons.mpr ⟨by omega, ?_⟩
  apply List.map_congr_left
  intro m _
  show L + ((Nat.succ m : Nat) : Int) = L + 1 + (m : Int)
  omega

theorem irange_split (L R k : Int) (hL : L ≤ k) (hR : k ≤ R) :
    irange L R = irange L (k - 1) ++ k :: irange (k + 1) R := by
  have hd : ∀ n : Nat, ∀ L k : Int, L ≤ k → k ≤ R → (k - L).toNat = n →
      irange L R = irange L (k - 1) ++ k :: irange (k + 1) R := by
    intro n
    induction n with
    | zero =>
      intro L k h1 h2 h3
      have : L = k := by omega
      subst this
      rw [irange_eq_cons L R h2, irange_empty L (L - 1) (by omega)]
      simp
    | succ m ih =>
      intro L k h1 h2 h3
      rw [irange_eq_cons L R (by omega), ih (L + 1) k (by omega) h2 (by omega),
        irange_eq_cons L (k - 1) (by omega)]
      simp
  exact hd (k - L).toNat L k hL hR rfl

theorem msl_congr (a b : List α) (L R : Int)
    (h : ∀ k, L ≤ k → k ≤ R → idx a k = idx b k) : msl a L R = msl b L R := by
  unfold msl
  congr 1
  apply List.map_congr_left
  intro k hk
  rw [mem_irange] at hk
  exact h k hk.1 hk.2

theorem mem_msl (a : List α) (L R : Int) (x : α) :
    x ∈ msl a L R ↔ ∃ k, L ≤ k ∧ k ≤ R ∧ idx a k = x := by
  unfold msl
  simp only [Multiset.mem_coe, List.mem_map]
  constructor
  · rintro ⟨k, hk, rfl⟩
    rw [mem_irange] at hk
    exact ⟨k, hk.1, hk.2, rfl⟩
  · rintro ⟨k, h1, h2, rfl⟩
    exact ⟨k, (mem_irange L R k).mpr ⟨h1, h2⟩, rfl⟩

theorem idx_mem_msl (a : List α) (L R k : Int) (h1 : L ≤ k) (h2 : k ≤ R) :
    idx a k ∈ msl a L R :=
  (mem_msl a L R (idx a k)).mpr ⟨k, h1, h2, rfl⟩

theorem irange_append (L R k : Int) (hL : L - 1 ≤ k) (hR : k ≤ R) :
    irange L R = irange L k ++ irange (k + 1) R := by
  by_cases h : L ≤ k
  · rw [irange_split L R k h hR, irange_split L k k h le_rfl,
      irange_empty (k + 1) k (by omega)]
    simp
  · have hk : k = L - 1 := by omega
    subst hk
    rw [irange_empty L (L - 1) (by omega)]
    simp

theorem msl_append (a : List α) (L R k : Int) (hL : L - 1 ≤ k) (hR : k ≤ R) :
    msl a L R = msl a L k + msl a (k + 1) R := by
  unfold msl
  rw [irange_append L R k hL hR, List.map_append, ← Multiset.coe_add]

theorem msl_split (a : List α) (L R k : Int) (hL : L ≤ k) (hR : k ≤ R) :
    msl a L R = idx a k ::ₘ (msl a L (k - 1) + msl a (k + 1) R) := by
  rw [msl_append a L R k (by omega) hR, msl_append a L k (k - 1) (by omega) (by omega)]
  have h1 : msl a (k - 1 + 1) k = (idx a k ::ₘ 0) := by
    unfold msl
    have : k - 1 + 1 = k := by omega
    rw [this, irange_eq_cons k k le_rfl, irange_empty (k + 1) k (by omega)]
    simp
  rw [h1]
  rw [Multiset.add_cons, Multiset.cons_add]
  simp

theorem msl_empty (a : List α) (L R : Int) (h : R < L) : msl a L R = 0 := by
  unfold msl
  rw [irange_empty L R h]
  simp

theorem msl_shift (a2 a1 : List α) (A B : Int)
    (h : ∀ k, A ≤ k → k ≤ B → idx a2 (k + 1) = idx a1 k) :
    msl a2 (A + 1) (B + 1) = msl a1 A B := by
  unfold msl irange
  have hc : (B + 1 + 1 - (A + 1)).toNat = (B + 1 - A).toNat := by omega
  rw [hc]
  congr 1
  rw [List.map_map, List.map_map]
  apply List.map_congr_left
  intro n hn
  rw [List.mem_range] at hn
  show idx a2 (A + 1 + (n : Int)) = idx a1 (A + (n : Int))
  have he : A + 1 + (n : Int) = (A + (n : Int)) + 1 := by ring
  rw [he]
  exact h (A + (n : Int)) (by omega) (by omega)

theorem msl_swap (a : List α) (L R i j : Int) (hLi : L ≤ i) (hij : i ≤ j) (hjR : j ≤ R)
    (hi0 : 0 ≤ i) (hjlen : j < (a.length : Int)) :
    msl (swapIdx a i j) L R = msl a L R := by
  have hilen : i < (a.length : Int) := by omega
  have hj0 : 0 ≤ j := by omega
  rcases eq_or_lt_of_le hij with hEq | hLt
  · subst hEq
    apply msl_congr
    intro k _ _
    by_cases hk : k = i
    · subst hk
      rw [idx_swapIdx_left a k k hi0 hilen hi0 hilen]
    · rw [idx_swapIdx_other a i i k hk hk]
  · have e1 : msl (swapIdx a i j) (j + 1) R = msl a (j + 1) R := by
      apply msl_congr
      intro k hk _
      exact idx_swapIdx_other a i j k (by omega) (by omega)
    have e2 : msl (swapIdx a i j) L (i - 1) = msl a L (i - 1) := by
      apply msl_congr
      intro k _ hk
      exact idx_swapIdx_other a i j k (by omega) (by omega)
    have e3 : msl (swapIdx a i j) (i + 1) (j - 1) = msl a (i + 1) (j - 1) := by
      apply msl_congr
      intro k hk hk2
      exact idx_swapIdx_other a i j k (by omega) (by omega)
    rw [msl_split (swapIdx a i j) L R j (by omega) hjR,
      msl_split (swapIdx a i j) L (j - 1) i hLi (by omega),
      msl_split a L R j (by omega) hjR,
      msl_split a L (j - 1) i hLi (by omega),
      idx_swapIdx_left a i j hi0 hilen hj0 hjlen,
      idx_swapIdx_right a i j hi0 hilen hj0 hjlen, e1, e2, e3]
    rw [Multiset.cons_add, Multiset.cons_add, Multiset.cons_swap]

/-!
Mixed sort (_mixed_sort in _util.c).

The quicksort branch of the C function is

    l = L - 1; r = R;
    for(;;)
    \x7b
        while(array[++l] < array[R]);
        while((array[--r] > array[R]) && (r > l));
        if(l >= r) break;
        swap array[l] and array[r];
    \x7d
    swap array[l] and array[R];
    recurse on [L, l-1] and [l+1, R]

and the insertion branch is

    for(l=L+1; l<=R; ++l)
    \x7b
        swap = array[l];
        for(r=l-1; (r >= L) && (swap < array[r]); --r)
            array[r + 1] = array[r];
        array[r + 1] = swap;
    \x7d

Each inner loop below is one definition; the bounds guard in scanUp stops
at the end of the array where the C loop, whose pivot cell array[R] always
stops it inside the contract assumed here, would read out of bounds.
-/

variable [LinearOrder α]

/-- The scan while(array[++l] < array[R]) with p = array[R]; returns the final l. -/
def scanUp (a : List α) (p : α) (l : Int) : Int :=
  if h : l + 1 < (a.length : Int) ∧ idx a (l + 1) < p then scanUp a p (l + 1) else l + 1
termination_by ((a.length : Int) - l).toNat
decreasing_by omega

/-- The scan while((array[--r] > array[R]) && (r > l)) with p = array[R]; returns the final r. -/
def scanDown (a : List α) (p : α) (l r : Int) : Int :=
  if h : p < idx a (r - 1) ∧ l < r - 1 then scanDown a p l (r - 1) else r - 1
termination_by (r - l).toNat
decreasing_by omega

theorem scanUp_ge (a : List α) (p : α) (l : Int) : l + 1 ≤ scanUp a p l := by
  refine scanUp.induct a p (fun l => l + 1 ≤ scanUp a p l) ?_ ?_ l
  · intro l h ih
    rw [scanUp, dif_pos h]
    omega
  · intro l h
    rw [scanUp, dif_neg h]

theorem scanUp_le_of_stop (a : List α) (p : α) (l R : Int) (hl : l < R)
    (hstop : ¬ idx a R < p) : scanUp a p l ≤ R := by
  refine scanUp.induct a p (fun l => l < R → scanUp a p l ≤ R) ?_ ?_ l hl
  · intro l h ih hl
    rw [scanUp, dif_pos h]
    rcases eq_or_lt_of_le (by omega : l + 1 ≤ R) with hEq | hLt
    · exact absurd (hEq ▸ h.2) hstop
    · exact ih hLt
  · intro l h hl
    rw [scanUp, dif_neg h]
    omega

theorem scanUp_scanned (a : List α) (p : α) (l k : Int)
    (h1 : l + 1 ≤ k) (h2 : k < scanUp a p l) : idx a k < p := by
  refine scanUp.induct a p
    (fun l => ∀ k, l + 1 ≤ k → k < scanUp a p l → idx a k < p) ?_ ?_ l k h1 h2
  · intro l h ih k hk1 hk2
    rw [scanUp, dif_pos h] at hk2
    rcases eq_or_lt_of_le hk1 with hEq | hLt
    · exact hEq ▸ h.2
    · exact ih k (by omega) hk2
  · intro l h k hk1 hk2
    rw [scanUp, dif_neg h] at hk2
    omega

theorem scanUp_stop (a : List α) (p : α) (l : Int) :
    ¬ (scanUp a p l < (a.length : Int) ∧ idx a (scanUp a p l) < p) := by
  refine scanUp.induct a p
    (fun l => ¬ (scanUp a p l < (a.length : Int) ∧ idx a (scanUp a p l) < p)) ?_ ?_ l
  · intro l h ih
    rw [scanUp, dif_pos h]
    exact ih
  · intro l h
    rw [scanUp, dif_neg h]
    exact h

theorem scanDown_le (a : List α) (p : α) (l r : Int) : scanDown a p l r ≤ r - 1 := by
  refine scanDown.induct a p l (fun r => scanDown a p l r ≤ r - 1) ?_ ?_ r
  · intro r h ih
    rw [scanDown, dif_pos h]
    omega
  · intro r h
    rw [scanDown, dif_neg h]

theorem scanDown_ge (a : List α) (p : α) (l r : Int) :
    min l (r - 1) ≤ scanDown a p l r := by
  refine scanDown.induct a p l (fun r => min l (r - 1) ≤ scanDown a p l r) ?_ ?_ r
  · intro r h ih
    rw [scanDown, dif_pos h]
    omega
  · intro r h
    rw [scanDown, dif_neg h]
    omega

theorem scanDown_scanned (a : List α) (p : α) (l r k : Int)
    (h1 : scanDown a p l r < k) (h2 : k ≤ r - 1) : p < idx a k := by
  refine scanDown.induct a p l
    (fun r => ∀ k, scanDown a p l r < k → k ≤ r - 1 → p < idx a k) ?_ ?_ r k h1 h2
  · intro r h ih k hk1 hk2
    rw [scanDown, dif_pos h] at hk1
    rcases eq_or_lt_of_le hk2 with hEq | hLt
    · exact hEq ▸ h.1
    · exact ih k hk1 (by omega)
  · intro r h k hk1 hk2
    rw [scanDown, dif_neg h] at hk1
    omega

theorem scanDown_stop (a : List α) (p : α) (l r : Int) :
    ¬ (p < idx a (scanDown a p l r) ∧ l < scanDown a p l r) := by
  refine scanDown.induct a p l
    (fun r => ¬ (p < idx a (scanDown a p l r) ∧ l < scanDown a p l r)) ?_ ?_ r
  · intro r h ih
    rw [scanDown, dif_pos h]
    exact ih
  · intro r h
    rw [scanDown, dif_neg h]
    exact fun hc => h hc

/-- The for(;;) partition loop of the quicksort branch; returns the array
after the internal swaps together with the final value of l. -/
def partLoop (a : List α) (R l r : Int) : List α × Int :=
  if h : scanUp a (idx a R) l < scanDown a (idx a R) (scanUp a (idx a R) l) r then
    partLoop (swapIdx a (scanUp a (idx a R) l) (scanDown a (idx a R) (scanUp a (idx a R) l) r))
      R (scanUp a (idx a R) l) (scanDown a (idx a R) (scanUp a (idx a R) l) r)
  else (a, scanUp a (idx a R) l)
termination_by (r - l).toNat
decreasing_by
  have h1 := scanUp_ge a (idx a R) l
  have h2 := scanDown_le a (idx a R) (scanUp a (idx a R) l) r
  omega

theorem partLoop_snd_ge (a : List α) (R l r : Int) : l + 1 ≤ (partLoop a R l r).2 := by
  refine partLoop.induct (fun a R l r => l + 1 ≤ (partLoop a R l r).2) ?_ ?_ a R l r
  · intro a R l r h ih
    rw [partLoop, dif_pos h]
    have h1 := scanUp_ge a (idx a R) l
    omega
  · intro a R l r h
    rw [partLoop, dif_neg h]
    exact scanUp_ge a (idx a R) l

theorem partLoop_snd_le (a : List α) (R l r : Int) (hl : l < R) (hr : r ≤ R) :
    (partLoop a R l r).2 ≤ R := by
  refine partLoop.induct
    (fun a R l r => l < R → r ≤ R → (partLoop a R l r).2 ≤ R) ?_ ?_ a R l r hl hr
  · intro a R l r h ih hl hr
    rw [partLoop, dif_pos h]
    have hu := scanUp_le_of_stop a (idx a R) l R hl (lt_irrefl (idx a R))
    have hd := scanDown_le a (idx a R) (scanUp a (idx a R) l) r
    exact ih (by omega) (by omega)
  · intro a R l r h hl hr
    rw [partLoop, dif_neg h]
    exact scanUp_le_of_stop a (idx a R) l R hl (lt_irrefl (idx a R))

/-- Full invariant of the partition loop: the loop permutes only the range
[L, R], keeps the pivot cell array[R] fixed, and stops at an index m with
everything left of m at most the pivot and everything in [m, R-1] at least
the pivot. -/
theorem partLoop_spec (L : Int) (hL0 : 0 ≤ L) (a : List α) (R l r : Int)
    (hLl : L - 1 ≤ l) (hlr : l < r) (hrR : r ≤ R) (hRlen : R < (a.length : Int))
    (hlow : ∀ k, L ≤ k → k ≤ l → idx a k ≤ idx a R)
    (hhigh : ∀ k, r ≤ k → k ≤ R - 1 → idx a R ≤ idx a k) :
    (partLoop a R l r).1.length = a.length ∧
    L ≤ (partLoop a R l r).2 ∧ (partLoop a R l r).2 ≤ R ∧
    idx (partLoop a R l r).1 R = idx a R ∧
    msl (partLoop a R l r).1 L R = msl a L R ∧
    (∀ k, k < L ∨ R < k → idx (partLoop a R l r).1 k = idx a k) ∧
    (∀ k, L ≤ k → k ≤ (partLoop a R l r).2 - 1 →
      idx (partLoop a R l r).1 k ≤ idx (partLoop a R l r).1 R) ∧
    (∀ k, (partLoop a R l r).2 ≤ k → k ≤ R - 1 →
      idx (partLoop a R l r).1 R ≤ idx (partLoop a R l r).1 k) := by
  refine partLoop.induct
    (fun a R l r => L - 1 ≤ l → l < r → r ≤ R → R < (a.length : Int) →
      (∀ k, L ≤ k → k ≤ l → idx a k ≤ idx a R) →
      (∀ k, r ≤ k → k ≤ R - 1 → idx a R ≤ idx a k) →
      (partLoop a R l r).1.length = a.length ∧
      L ≤ (partLoop a R l r).2 ∧ (partLoop a R l r).2 ≤ R ∧
      idx (partLoop a R l r).1 R = idx a R ∧
      msl (partLoop a R l r).1 L R = msl a L R ∧
      (∀ k, k < L ∨ R < k → idx (partLoop a R l r).1 k = idx a k) ∧
      (∀ k, L ≤ k → k ≤ (partLoop a R l r).2 - 1 →
        idx (partLoop a R l r).1 k ≤ idx (partLoop a R l r).1 R) ∧
      (∀ k, (partLoop a R l r).2 ≤ k → k ≤ R - 1 →
        idx (partLoop a R l r).1 R ≤ idx (partLoop a R l r).1 k))
    ?_ ?_ a R l r hLl hlr hrR hRlen hlow hhigh
  · intro a R l r h ih hLl hlr hrR hRlen hlow hhigh
    rw [partLoop, dif_pos h]
    set p := idx a R with hp
    set u := scanUp a p l with hu
    set d := scanDown a p u r with hd
    have hge : l + 1 ≤ u := by rw [hu]; exact scanUp_ge a p l
    have hdle : d ≤ r - 1 := by rw [hd]; exact scanDown_le a p u r
    have hu0 : 0 ≤ u := by omega
    have hd0 : 0 ≤ d := by omega
    have hulen : u < (a.length : Int) := by omega
    have hdlen : d < (a.length : Int) := by omega
    have hscanned : ∀ k, l + 1 ≤ k → k < u → idx a k < p := by
      rw [hu]
      exact fun k h1 h2 => scanUp_scanned a p l k h1 h2
    have hustop : ¬ (u < (a.length : Int) ∧ idx a u < p) := by
      rw [hu]
      exact scanUp_stop a p l
    have hdscanned : ∀ k, d < k → k ≤ r - 1 → p < idx a k := by
      rw [hd]
      exact fun k h1 h2 => scanDown_scanned a p u r k h1 h2
    have hdstop : ¬ (p < idx a d ∧ u < d) := by
      rw [hd]
      exact scanDown_stop a p u r
    have hdval : idx a d ≤ p := le_of_not_lt (fun hc => hdstop ⟨hc, h⟩)
    have huval : p ≤ idx a u := le_of_not_lt (fun hc => hustop ⟨hulen, hc⟩)
    set b := swapIdx a u d with hb
    have hlen2 : b.length = a.length := by rw [hb]; exact length_swapIdx a u d
    have hpiv2 : idx b R = p := by
      rw [hb, idx_swapIdx_other a u d R (by omega) (by omega)]
    have hleft : idx b u = idx a d := by
      rw [hb]
      exact idx_swapIdx_left a u d hu0 hulen hd0 hdlen
    have hright : idx b d = idx a u := by
      rw [hb]
      exact idx_swapIdx_right a u d hu0 hulen hd0 hdlen
    have hother : ∀ k, k ≠ u → k ≠ d → idx b k = idx a k := by
      intro k h1 h2
      rw [hb]
      exact idx_swapIdx_other a u d k h1 h2
    have hlow2 : ∀ k, L ≤ k → k ≤ u → idx b k ≤ idx b R := by
      intro k hk1 hk2
      rw [hpiv2]
      rcases eq_or_lt_of_le hk2 with hEq | hLt
      · subst hEq
        rw [hleft]
        exact hdval
      · rw [hother k (by omega) (by omega)]
        by_cases hkl : k ≤ l
        · exact hlow k hk1 hkl
        · exact (hscanned k (by omega) hLt).le
    have hhigh2 : ∀ k, d ≤ k → k ≤ R - 1 → idx b R ≤ idx b k := by
      intro k hk1 hk2
      rw [hpiv2]
      rcases eq_or_lt_of_le hk1 with hEq | hLt
      · rw [← hEq, hright]
        exact huval
      · rw [hother k (by omega) (by omega)]
        by_cases hkr : k ≤ r - 1
        · exact (hdscanned k hLt hkr).le
        · exact hhigh k (by omega) hk2
    obtain ⟨c1, c2, c3, c4, c5, c6, c7, c8⟩ :=
      ih (by omega) h (by omega) (by rw [hlen2]; exact hRlen) hlow2 hhigh2
    refine ⟨c1.trans hlen2, c2, c3, c4.trans hpiv2, ?_, ?_, c7, c8⟩
    · rw [c5, hb]
      exact msl_swap a L R u d (by omega) (by omega) (by omega) hu0 hdlen
    · intro k hk
      rw [c6 k hk]
      exact hother k (by omega) (by omega)
  · intro a R l r h hLl hlr hrR hRlen hlow hhigh
    rw [partLoop, dif_neg h]
    set p := idx a R with hp
    set u := scanUp a p l with hu
    set d := scanDown a p u r with hd
    have hge : l + 1 ≤ u := by rw [hu]; exact scanUp_ge a p l
    have hdle : d ≤ r - 1 := by rw [hd]; exact scanDown_le a p u r
    have hule : u ≤ R := by
      rw [hu]
      refine scanUp_le_of_stop a p l R (by omega) ?_
      rw [hp]
      exact lt_irrefl (idx a R)
    have hscanned : ∀ k, l + 1 ≤ k → k < u → idx a k < p := by
      rw [hu]
      exact fun k h1 h2 => scanUp_scanned a p l k h1 h2
    have hustop : ¬ (u < (a.length : Int) ∧ idx a u < p) := by
      rw [hu]
      exact scanUp_stop a p l
    have hdscanned : ∀ k, d < k → k ≤ r - 1 → p < idx a k := by
      rw [hd]
      exact fun k h1 h2 => scanDown_scanned a p u r k h1 h2
    refine ⟨rfl, by omega, hule, rfl, rfl, fun k _ => rfl, ?_, ?_⟩
    · intro k hk1 hk2
      by_cases hkl : k ≤ l
      · exact hlow k hk1 hkl
      · exact (hscanned k (by omega) (by omega)).le
    · intro k hk1 hk2
      rcases eq_or_lt_of_le hk1 with hEq | hLt
      · subst hEq
        exact le_of_not_lt (fun hc => hustop ⟨by omega, hc⟩)
      · by_cases hkr : k ≤ r - 1
        · exact (hdscanned k (by omega) hkr).le
        · exact hhigh k (by omega) hk2

/-- The quicksort partition step: partition loop followed by the final swap
of array[l] with the pivot cell array[R]; returns the array and l. -/
def partition (a : List α) (L R : Int) : List α × Int :=
  (swapIdx (partLoop a R (L - 1) R).1 (partLoop a R (L - 1) R).2 R,
    (partLoop a R (L - 1) R).2)

theorem partition_snd_ge (a : List α) (L R : Int) : L ≤ (partition a L R).2 := by
  unfold partition
  have := partLoop_snd_ge a R (L - 1) R
  simp only
  omega

theorem partition_snd_le (a : List α) (L R : Int) (h : L ≤ R) :
    (partition a L R).2 ≤ R := by
  unfold partition
  simp only
  exact partLoop_snd_le a R (L - 1) R (by omega) le_rfl

/-- Full specification of the partition step: it permutes exactly the range
[L, R] and places the pivot at the returned position m, with [L, m-1] at most
the pivot and [m+1, R] at least the pivot. -/
theorem partition_spec (a : List α) (L R : Int) (hL0 : 0 ≤ L) (hLR : L < R)
    (hRlen : R < (a.length : Int)) :
    (partition a L R).1.length = a.length ∧
    L ≤ (partition a L R).2 ∧ (partition a L R).2 ≤ R ∧
    msl (partition a L R).1 L R = msl a L R ∧
    (∀ k, k < L ∨ R < k → idx (partition a L R).1 k = idx a k) ∧
    (∀ k, L ≤ k → k < (partition a L R).2 →
      idx (partition a L R).1 k ≤ idx (partition a L R).1 (partition a L R).2) ∧
    (∀ k, (partition a L R).2 < k → k ≤ R →
      idx (partition a L R).1 (partition a L R).2 ≤ idx (partition a L R).1 k) := by
  obtain ⟨c1, c2, c3, c4, c5, c6, c7, c8⟩ :=
    partLoop_spec L hL0 a R (L - 1) R le_rfl (by omega) le_rfl hRlen
      (fun k hk1 hk2 => absurd (hk1.trans hk2) (by omega))
      (fun k hk1 hk2 => absurd (hk1.trans hk2) (by omega))
  unfold partition
  set b := (partLoop a R (L - 1) R).1 with hbdef
  set m := (partLoop a R (L - 1) R).2 with hmdef
  simp only
  have hm0 : 0 ≤ m := by omega
  have hmlen : m < (b.length : Int) := by rw [c1]; omega
  have hR0 : 0 ≤ R := by omega
  have hRlenb : R < (b.length : Int) := by rw [c1]; exact hRlen
  have hfm : idx (swapIdx b m R) m = idx b R :=
    idx_swapIdx_left b m R hm0 hmlen hR0 hRlenb
  refine ⟨(length_swapIdx b m R).trans c1, c2, c3, ?_, ?_, ?_, ?_⟩
  · rw [msl_swap b L R m R c2 c3 le_rfl hm0 hRlenb]
    exact c5
  · intro k hk
    rw [idx_swapIdx_other b m R k (by omega) (by omega)]
    exact c6 k hk
  · intro k hk1 hk2
    rw [hfm, idx_swapIdx_other b m R k (by omega) (by omega)]
    exact c7 k hk1 (by omega)
  · intro k hk1 hk2
    rw [hfm]
    rcases eq_or_lt_of_le hk2 with hEq | hLt
    · rw [hEq, idx_swapIdx_right b m R hm0 hmlen hR0 hRlenb]
      exact c8 m le_rfl (by omega)
    · rw [idx_swapIdx_other b m R k (by omega) (by omega)]
      exact c8 k (by omega) (by omega)

/-- The inner while loop of the insertion branch: shift cells right while
(r >= L) && (swap < array[r]); returns the shifted array and the final r. -/
def insInner (a : List α) (L : Int) (v : α) (r : Int) : List α × Int :=
  if h : L ≤ r ∧ v < idx a r then insInner (setIdx a (r + 1) (idx a r)) L v (r - 1)
  else (a, r)
termination_by (r + 1 - L).toNat
decreasing_by omega

/-- Full behaviour of the inner shifting loop of the insertion branch: the
loop stops at an index m with array[m] at most the inserted value (when m is
still inside the range), cells up to m+1 untouched, cells in [m+2, r+1]
shifted right by one, cells beyond r+1 untouched, and all shifted original
values strictly greater than the inserted value. -/
theorem insInner_spec (a : List α) (L : Int) (v : α) (r : Int)
    (hL0 : 0 ≤ L) (hLr : L - 1 ≤ r) (hrlen : r + 1 < (a.length : Int)) :
    (insInner a L v r).1.length = a.length ∧
    L - 1 ≤ (insInner a L v r).2 ∧ (insInner a L v r).2 ≤ r ∧
    (L ≤ (insInner a L v r).2 → idx a (insInner a L v r).2 ≤ v) ∧
    (∀ k, k ≤ (insInner a L v r).2 + 1 → idx (insInner a L v r).1 k = idx a k) ∧
    (∀ k, (insInner a L v r).2 + 2 ≤ k → k ≤ r + 1 →
      idx (insInner a L v r).1 k = idx a (k - 1)) ∧
    (∀ k, r + 1 < k → idx (insInner a L v r).1 k = idx a k) ∧
    (∀ k, (insInner a L v r).2 + 1 ≤ k → k ≤ r → v < idx a k) := by
  refine insInner.induct
    (fun a L v r => 0 ≤ L → L - 1 ≤ r → r + 1 < (a.length : Int) →
      (insInner a L v r).1.length = a.length ∧
      L - 1 ≤ (insInner a L v r).2 ∧ (insInner a L v r).2 ≤ r ∧
      (L ≤ (insInner a L v r).2 → idx a (insInner a L v r).2 ≤ v) ∧
      (∀ k, k ≤ (insInner a L v r).2 + 1 → idx (insInner a L v r).1 k = idx a k) ∧
      (∀ k, (insInner a L v r).2 + 2 ≤ k → k ≤ r + 1 →
        idx (insInner a L v r).1 k = idx a (k - 1)) ∧
      (∀ k, r + 1 < k → idx (insInner a L v r).1 k = idx a k) ∧
      (∀ k, (insInner a L v r).2 + 1 ≤ k → k ≤ r → v < idx a k))
    ?_ ?_ a L v r hL0 hLr hrlen
  · intro a L v r h ih hL0 hLr hrlen
    rw [insInner, dif_pos h]
    set b := setIdx a (r + 1) (idx a r) with hb
    have hlen1 : b.length = a.length := by rw [hb]; exact length_setIdx a (r + 1) (idx a r)
    have hbeq : idx b (r + 1) = idx a r := by
      rw [hb]
      exact idx_setIdx_eq a (r + 1) (idx a r) (by omega) hrlen
    have hbne : ∀ k, k ≠ r + 1 → idx b k = idx a k := by
      intro k hk
      rw [hb]
      exact idx_setIdx_ne a (r + 1) k (idx a r) hk
    obtain ⟨c1, c2, c3, c4, c5, c6, c7, c8⟩ :=
      ih hL0 (by omega) (by rw [hlen1]; omega)
    set m := (insInner b L v (r - 1)).2 with hm
    refine ⟨c1.trans hlen1, by omega, by omega, ?_, ?_, ?_, ?_, ?_⟩
    · intro hLm
      have := c4 hLm
      rw [hbne m (by omega)] at this
      exact this
    · intro k hk
      rw [c5 k hk, hbne k (by omega)]
    · intro k hk1 hk2
      by_cases hkr : k ≤ r
      · rw [c6 k hk1 (by omega), hbne (k - 1) (by omega)]
      · have hk3 : k = r + 1 := by omega
        rw [c7 k (by omega), hk3, hbeq]
        congr 1
        omega
    · intro k hk
      rw [c7 k (by omega), hbne k (by omega)]
    · intro k hk1 hk2
      by_cases hkr : k ≤ r - 1
      · have := c8 k hk1 hkr
        rw [hbne k (by omega)] at this
        exact this
      · have hk3 : k = r := by omega
        rw [hk3]
        exact h.2
  · intro a L v r h hL0 hLr hrlen
    rw [insInner, dif_neg h]
    refine ⟨rfl, hLr, le_rfl, ?_, fun k _ => rfl, ?_, fun k _ => rfl, ?_⟩
    · intro hLr2
      rcases not_and_or.mp h with hc | hc
      · exact absurd hLr2 hc
      · exact le_of_not_lt hc
    · intro k hk1 hk2
      omega
    · intro k hk1 hk2
      omega

/-- The outer for loop of the insertion branch, running l from L+1 to R. -/
def insOuter (a : List α) (L R l : Int) : List α :=
  if hl : l ≤ R then
    insOuter (setIdx (insInner a L (idx a l) (l - 1)).1
      ((insInner a L (idx a l) (l - 1)).2 + 1) (idx a l)) L R (l + 1)
  else a
termination_by (R + 1 - l).toNat
decreasing_by omega

/-- The insertion-sort branch of _mixed_sort on the inclusive range [L, R]. -/
def insertionSortRange (a : List α) (L R : Int) : List α :=
  insOuter a L R (L + 1)

/-- Invariant of the outer insertion loop: entering iteration l with [L, l-1]
already sorted, the loop leaves a permutation of [L, R] that is sorted, and
touches nothing outside [L, R]. -/
theorem insOuter_spec (a : List α) (L R l : Int) (hL0 : 0 ≤ L)
    (hRlen : R < (a.length : Int)) (hLl : L < l) (hsorted : sortedOn a L (l - 1)) :
    (insOuter a L R l).length = a.length ∧
    msl (insOuter a L R l) L R = msl a L R ∧
    sortedOn (insOuter a L R l) L R ∧
    (∀ k, k < L ∨ R < k → idx (insOuter a L R l) k = idx a k) := by
  refine insOuter.induct
    (fun a L R l => 0 ≤ L → R < (a.length : Int) → L < l → sortedOn a L (l - 1) →
      (insOuter a L R l).length = a.length ∧
      msl (insOuter a L R l) L R = msl a L R ∧
      sortedOn (insOuter a L R l) L R ∧
      (∀ k, k < L ∨ R < k → idx (insOuter a L R l) k = idx a k))
    ?_ ?_ a L R l hL0 hRlen hLl hsorted
  · intro a L R l hl ih hL0 hRlen hLl hsorted
    rw [insOuter, dif_pos hl]
    have hllen : l < (a.length : Int) := by omega
    obtain ⟨c1, c2, c3, c4, c5, c6, c7, c8⟩ :=
      insInner_spec a L (idx a l) (l - 1) hL0 (by omega) (by omega)
    set v := idx a l with hv
    set b := (insInner a L v (l - 1)).1 with hbdef
    set rr := (insInner a L v (l - 1)).2 with hrrdef
    set c := setIdx b (rr + 1) v with hcdef
    have hclen : c.length = a.length := by
      rw [hcdef, length_setIdx]
      exact c1
    have hcval : idx c (rr + 1) = v := by
      rw [hcdef]
      refine idx_setIdx_eq b (rr + 1) v (by omega) ?_
      rw [c1]
      omega
    have hlow : ∀ k, k ≤ rr → idx c k = idx a k := by
      intro k hk
      rw [hcdef, idx_setIdx_ne b (rr + 1) k v (by omega)]
      exact c5 k (by omega)
    have hmid : ∀ k, rr + 2 ≤ k → k ≤ l → idx c k = idx a (k - 1) := by
      intro k hk1 hk2
      rw [hcdef, idx_setIdx_ne b (rr + 1) k v (by omega)]
      exact c6 k hk1 (by omega)
    have hhi : ∀ k, l < k → idx c k = idx a k := by
      intro k hk
      rw [hcdef, idx_setIdx_ne b (rr + 1) k v (by omega)]
      refine c7 k ?_
      omega
    have hstopv : L ≤ rr → idx a rr ≤ v := c4
    have hscanned : ∀ k, rr + 1 ≤ k → k ≤ l - 1 → v < idx a k := by
      intro k hk1 hk2
      exact c8 k hk1 hk2
    have hsorted2 : sortedOn c L l := by
      intro i j hi hij hjl
      by_cases hirr : i ≤ rr
      · rw [hlow i hirr]
        by_cases hjrr : j ≤ rr
        · rw [hlow j hjrr]
          exact hsorted i j hi hij (by omega)
        · by_cases hjr1 : j = rr + 1
          · rw [hjr1, hcval]
            exact le_trans (hsorted i rr hi hirr (by omega)) (hstopv (by omega))
          · rw [hmid j (by omega) hjl]
            exact hsorted i (j - 1) hi (by omega) (by omega)
      · by_cases hir1 : i = rr + 1
        · rw [hir1, hcval]
          by_cases hjr1 : j = rr + 1
          · rw [hjr1, hcval]
          · rw [hmid j (by omega) hjl]
            exact (hscanned (j - 1) (by omega) (by omega)).le
        · rw [hmid i (by omega) (by omega)]
          by_cases hjr1 : j = rr + 1
          · exact absurd hij (by omega)
          · rw [hmid j (by omega) hjl]
            exact hsorted (i - 1) (j - 1) (by omega) (by omega) (by omega)
    have hmsl2 : msl c L l = msl a L l := by
      rw [msl_split c L l (rr + 1) (by omega) (by omega), hcval]
      have e1 : msl c L (rr + 1 - 1) = msl a L (rr + 1 - 1) := by
        apply msl_congr
        intro k _ hk
        exact hlow k (by omega)
      have e2 : msl c (rr + 1 + 1) l = msl a (rr + 1) (l - 1) := by
        have e3 : msl c (rr + 1 + 1) l = msl c (rr + 1 + 1) (l - 1 + 1) := by
          rw [show l - 1 + 1 = l by ring]
        rw [e3]
        apply msl_shift
        intro k hk1 hk2
        rw [hmid (k + 1) (by omega) (by omega)]
        rw [show k + 1 - 1 = k by ring]
      rw [e1, e2, msl_split a L l l (by omega) le_rfl, msl_empty a (l + 1) l (by omega),
        msl_append a L (l - 1) (rr + 1 - 1) (by omega) (by omega)]
      rw [show rr + 1 - 1 + 1 = rr + 1 by ring]
      rw [hv]
      simp
    have hmslc : msl c L R = msl a L R := by
      rw [msl_append c L R l (by omega) (by omega), msl_append a L R l (by omega) (by omega),
        hmsl2]
      have : msl c (l + 1) R = msl a (l + 1) R := by
        apply msl_congr
        intro k hk _
        exact hhi k (by omega)
      rw [this]
    obtain ⟨d1, d2, d3, d4⟩ := ih hL0 (by rw [hclen]; exact hRlen) (by omega)
      (by rw [show l + 1 - 1 = l by ring]; exact hsorted2)
    refine ⟨d1.trans hclen, d2.trans hmslc, d3, ?_⟩
    · intro k hk
      rw [d4 k hk]
      rcases hk with hk | hk
      · exact hlow k (by omega)
      · exact hhi k (by omega)
  · intro a L R l hl hL0 hRlen hLl hsorted
    rw [insOuter, dif_neg hl]
    exact ⟨rfl, rfl, fun i j hi hij hjR => hsorted i j hi hij (by omega),
      fun k _ => rfl⟩

/-- The insertion branch sorts the range [L, R]: the result is a permutation
of the original range, sorted, with everything outside the range untouched. -/
theorem insertionSortRange_spec (a : List α) (L R : Int) (hL0 : 0 ≤ L)
    (hRlen : R < (a.length : Int)) :
    (insertionSortRange a L R).length = a.length ∧
    msl (insertionSortRange a L R) L R = msl a L R ∧
    sortedOn (insertionSortRange a L R) L R ∧
    (∀ k, k < L ∨ R < k → idx (insertionSortRange a L R) k = idx a k) := by
  unfold insertionSortRange
  refine insOuter_spec a L R (L + 1) hL0 hRlen (by omega) ?_
  intro i j hi hij hjl
  have : i = j := by omega
  rw [this]

/-- The branch guard of _mixed_sort: the quicksort path is taken
exactly when R - L > 25. -/
def usesQuicksort (L R : Int) : Bool :=
  decide (25 < R - L)

/-- _mixed_sort: quicksort with last-element pivot on ranges with R - L > 25,
insertion sort otherwise, recursing on both partitions. -/
def mixedSort (a : List α) (L R : Int) : List α :=
  if h : usesQuicksort L R = true then
    mixedSort (mixedSort (partition a L R).1 L ((partition a L R).2 - 1))
      ((partition a L R).2 + 1) R
  else insertionSortRange a L R
termination_by (R - L).toNat
decreasing_by
  · have h1 := partition_snd_ge a L R
    have h2 := partition_snd_le a L R (by simp [usesQuicksort] at h; omega)
    simp [usesQuicksort] at h
    omega
  · have h1 := partition_snd_ge a L R
    have h2 := partition_snd_le a L R (by simp [usesQuicksort] at h; omega)
    simp [usesQuicksort] at h
    omega

theorem all_le_of_msl (a1 a2 : List α) (L R : Int) (hm : msl a1 L R = msl a2 L R)
    (c : α) (hb : ∀ k, L ≤ k → k ≤ R → idx a2 k ≤ c) :
    ∀ k, L ≤ k → k ≤ R → idx a1 k ≤ c := by
  intro k hk1 hk2
  have hmem : idx a1 k ∈ msl a2 L R := hm ▸ idx_mem_msl a1 L R k hk1 hk2
  obtain ⟨k2, h1, h2, h3⟩ := (mem_msl a2 L R _).mp hmem
  rw [← h3]
  exact hb k2 h1 h2

theorem all_ge_of_msl (a1 a2 : List α) (L R : Int) (hm : msl a1 L R = msl a2 L R)
    (c : α) (hb : ∀ k, L ≤ k → k ≤ R → c ≤ idx a2 k) :
    ∀ k, L ≤ k → k ≤ R → c ≤ idx a1 k := by
  intro k hk1 hk2
  have hmem : idx a1 k ∈ msl a2 L R := hm ▸ idx_mem_msl a1 L R k hk1 hk2
  obtain ⟨k2, h1, h2, h3⟩ := (mem_msl a2 L R _).mp hmem
  rw [← h3]
  exact hb k2 h1 h2

/-- Correctness of _mixed_sort on any valid range: the result holds a
permutation of the values at positions [L, R], those positions are in
non-decreasing order, and every position outside [L, R] is untouched. -/
theorem mixedSort_spec (a : List α) (L R : Int) (hL0 : 0 ≤ L)
    (hRlen : R < (a.length : Int)) :
    (mixedSort a L R).length = a.length ∧
    msl (mixedSort a L R) L R = msl a L R ∧
    sortedOn (mixedSort a L R) L R ∧
    (∀ k, k < L ∨ R < k → idx (mixedSort a L R) k = idx a k) := by
  refine mixedSort.induct
    (fun a L R => 0 ≤ L → R < (a.length : Int) →
      (mixedSort a L R).length = a.length ∧
      msl (mixedSort a L R) L R = msl a L R ∧
      sortedOn (mixedSort a L R) L R ∧
      (∀ k, k < L ∨ R < k → idx (mixedSort a L R) k = idx a k))
    ?_ ?_ a L R hL0 hRlen
  · intro a L R h ih1 ih2 hL0 hRlen
    rw [mixedSort, dif_pos h]
    have hqs : 25 < R - L := by simpa [usesQuicksort] using h
    obtain ⟨p1, p2, p3, p4, p5, p6, p7⟩ := partition_spec a L R hL0 (by omega) hRlen
    set b := (partition a L R).1 with hbdef
    set m := (partition a L R).2 with hmdef
    obtain ⟨q1, q2, q3, q4⟩ := ih1 hL0 (by rw [p1]; omega)
    set s1 := mixedSort b L (m - 1) with hs1def
    obtain ⟨t1, t2, t3, t4⟩ := ih2 (by omega) (by rw [q1, p1]; exact hRlen)
    set s2 := mixedSort s1 (m + 1) R with hs2def
    have hs1m : idx s1 m = idx b m := q4 m (Or.inr (by omega))
    have hs2m : idx s2 m = idx s1 m := t4 m (Or.inl (by omega))
    have hA : ∀ k, L ≤ k → k ≤ m - 1 → idx s1 k ≤ idx b m :=
      all_le_of_msl s1 b L (m - 1) q2 (idx b m)
        (fun k hk1 hk2 => p6 k hk1 (by omega))
    have hs2low : ∀ k, L ≤ k → k ≤ m - 1 → idx s2 k = idx s1 k :=
      fun k _ hk2 => t4 k (Or.inl (by omega))
    have hs1high : ∀ k, m + 1 ≤ k → k ≤ R → idx s1 k = idx b k :=
      fun k hk1 hk2 => q4 k (Or.inr (by omega))
    have hB : ∀ k, m + 1 ≤ k → k ≤ R → idx b m ≤ idx s2 k := by
      refine all_ge_of_msl s2 s1 (m + 1) R t2 (idx b m) ?_
      intro k hk1 hk2
      rw [hs1high k hk1 hk2]
      exact p7 k (by omega) hk2
    refine ⟨t1.trans (q1.trans p1), ?_, ?_, ?_⟩
    · have e1 : msl s2 L (m - 1) = msl b L (m - 1) := by
        rw [← q2]
        exact msl_congr s2 s1 L (m - 1) (fun k hk1 hk2 => hs2low k hk1 hk2)
      have e2 : msl s2 (m + 1) R = msl b (m + 1) R := by
        rw [t2]
        exact msl_congr s1 b (m + 1) R (fun k hk1 hk2 => hs1high k hk1 hk2)
      rw [msl_split s2 L R m p2 p3, msl_split b L R m p2 p3] at *
      rw [e1, e2, hs2m, hs1m]
      exact p4
    · intro i j hi hij hjR
      rcases lt_trichotomy j m with hjm | hjm | hjm
      · rw [hs2low i hi (by omega), hs2low j (by omega) (by omega)]
        exact q3 i j hi hij (by omega)
      · subst hjm
        rcases eq_or_lt_of_le hij with hEq | hLt
        · rw [hEq]
        · rw [hs2low i hi (by omega), hs2m, hs1m]
          exact hA i hi (by omega)
      · rcases lt_trichotomy i m with him | him | him
        · rw [hs2low i hi (by omega)]
          exact le_trans (hA i hi (by omega)) (hB j (by omega) hjR)
        · rw [him, hs2m, hs1m]
          exact hB j (by omega) hjR
        · exact t3 i j (by omega) hij hjR
    · intro k hk
      have e3 : idx s2 k = idx s1 k := t4 k (by omega)
      have e4 : idx s1 k = idx b k := q4 k (by omega)
      rw [e3, e4]
      exact p5 k hk
  · intro a L R h hL0 hRlen
    rw [mixedSort, dif_neg h]
    exact insertionSortRange_spec a L R hL0 hRlen

/-- Zero- and one-element ranges: the insertion branch runs its outer loop
from L+1, which is already past R, so the array is returned unchanged. -/
theorem mixedSort_no_op (a : List α) (L R : Int) (h : R ≤ L) : mixedSort a L R = a := by
  rw [mixedSort, dif_neg (by simp [usesQuicksort]; omega)]
  unfold insertionSortRange
  rw [insOuter, dif_neg (by omega)]

/-- Closed evaluation of _mixed_sort on a two-element range, obtained by
unwinding the insertion branch once. -/
theorem mixedSort_pair (x y : α) :
    mixedSort [x, y] 0 1 = if y < x then [y, x] else [x, y] := by
  rw [mixedSort, dif_neg (by simp [usesQuicksort])]
  show insOuter [x, y] 0 1 1 = _
  rw [insOuter, dif_pos (by omega : (1 : Int) ≤ 1)]
  show insOuter (setIdx (insInner [x, y] 0 y 0).1 ((insInner [x, y] 0 y 0).2 + 1) y)
    0 1 2 = _
  by_cases hxy : y < x
  · rw [insInner, dif_pos (⟨le_rfl, hxy⟩ : (0 : Int) ≤ 0 ∧ y < idx [x, y] 0)]
    show insOuter (setIdx (insInner [x, x] 0 y (-1)).1 ((insInner [x, x] 0 y (-1)).2 + 1) y)
      0 1 2 = _
    rw [insInner, dif_neg (by simp : ¬ ((0 : Int) ≤ -1 ∧ y < idx [x, x] (-1)))]
    show insOuter [y, x] 0 1 2 = _
    rw [insOuter, dif_neg (by omega : ¬ (2 : Int) ≤ 1), if_pos hxy]
  · rw [insInner, dif_neg (fun hc => hxy hc.2)]
    show insOuter [x, y] 0 1 2 = _
    rw [insOuter, dif_neg (by omega : ¬ (2 : Int) ≤ 1), if_neg hxy]

/-- Closed evaluation of _mixed_sort on any length-2 array. -/
theorem mixedSort_pair_list (s : List α) (h : s.length = 2) :
    mixedSort s 0 1 =
      if idx s 1 < idx s 0 then [idx s 1, idx s 0] else [idx s 0, idx s 1] := by
  match s with
  | [] => simp at h
  | [x] => simp at h
  | x :: y :: z :: t => simp at h
  | [x, y] =>
    show mixedSort [x, y] 0 1 = if y < x then [y, x] else [x, y]
    exact mixedSort_pair x y

/-!
Kahan summation (_kahan_summation_step and _kahan_summation in _util.c),
over the exact rationals as the model of double arithmetic.
-/

/-- One step of _kahan_summation_step: given the new value and the current
contents of the four cells sum, err, loc, tmp, returns their new contents in
the order (sum, err, loc, tmp) after
loc = new_value - err; tmp = sum + loc; err = (tmp - sum) - loc; sum = tmp.
The old loc and tmp are overwritten without being read, exactly as in C. -/
def kahan_summation_step (new_value sum err loc tmp : ℚ) : ℚ × ℚ × ℚ × ℚ :=
  let loc2 := new_value - err
  let tmp2 := sum + loc2
  (tmp2, (tmp2 - sum) - loc2, loc2, tmp2)

/-- The loop body of _kahan_summation, threading (array, sum, err). -/
def kahanBody (st : List ℚ × ℚ × ℚ) (i : Nat) : List ℚ × ℚ × ℚ :=
  let loc := idx st.1 (i : Int) - st.2.2
  let tmp := st.2.1 + loc
  (st.1, tmp, (tmp - st.2.1) - loc)

/-- _kahan_summation: compensated sum of array[0..size-1], starting from
sum = 0 and err = 0.  The array is threaded through the loop and returned
next to the sum; the loop body reads but never writes it. -/
def kahan_summation (array : List ℚ) (size : Int) : List ℚ × ℚ :=
  (((List.range size.toNat).foldl kahanBody (array, 0, 0)).1,
    ((List.range size.toNat).foldl kahanBody (array, 0, 0)).2.1)

theorem kahanBody_fst (st : List ℚ × ℚ × ℚ) (i : Nat) : (kahanBody st i).1 = st.1 := rfl

theorem kahan_foldl_fst (ns : List Nat) (st : List ℚ × ℚ × ℚ) :
    (ns.foldl kahanBody st).1 = st.1 := by
  induction ns generalizing st with
  | nil => rfl
  | cons n t ih => rw [List.foldl_cons, ih, kahanBody_fst]

theorem kahan_summation_fst (array : List ℚ) (size : Int) :
    (kahan_summation array size).1 = array := by
  unfold kahan_summation
  exact kahan_foldl_fst (List.range size.toNat) (array, 0, 0)

/-- Feeding the same values in the same order through the step form,
starting from sum = 0, err = 0, reproduces the batch form exactly: the two
loop bodies are the same four-operation recurrence. -/
theorem kahan_step_fold (a : List ℚ) (ns : List Nat) (s e lc tp : ℚ) :
    ((ns.map (fun i : Nat => idx a (i : Int))).foldl
      (fun st v => kahan_summation_step v st.1 st.2.1 st.2.2.1 st.2.2.2) (s, e, lc, tp)).1
      = (ns.foldl kahanBody (a, s, e)).2.1 := by
  induction ns generalizing s e lc tp with
  | nil =>
    show s = s
    rfl
  | cons n t ih =>
    rw [List.map_cons, List.foldl_cons, List.foldl_cons]
    have hfst : (kahanBody (a, s, e) n).1 = a := rfl
    show ((t.map (fun i : Nat => idx a (i : Int))).foldl
      (fun st v => kahan_summation_step v st.1 st.2.1 st.2.2.1 st.2.2.2)
      (kahan_summation_step (idx a (n : Int)) s e lc tp)).1
      = (t.foldl kahanBody (kahanBody (a, s, e) n)).2.1
    simp only [kahan_summation_step, kahanBody]
    exact ih (s + (idx a (n : Int) - e)) ((s + (idx a (n : Int) - e) - s) - (idx a (n : Int) - e)) _ _

/-!
Log-sum-exp family (_logsumexp and friends in _util.c).

A double in log space is modelled as WithBot of the rationals, with the
bottom element standing for -infinity (written -INFINITY in the C code).
The C library functions exp and log are abstract parameters fexp and flog;
subtraction, which the C code only ever applies with a finite right operand,
is the function dSub below, and addition is the WithBot addition, for which
bottom is absorbing exactly as -infinity is absorbing for IEEE addition
among finite doubles and -infinity.
-/

/-- The model of doubles in log space: rationals extended with -infinity. -/
abbrev Dbl : Type := WithBot ℚ

instance : Inhabited Dbl := ⟨⊥⟩

/-- Embedding of a finite double value. -/
abbrev fin (q : ℚ) : Dbl := ((q : ℚ) : WithBot ℚ)

/-- IEEE subtraction x - y restricted to the cases the code reaches: both
finite, or -infinity minus a finite value.  The case of a finite left
operand with a -infinity right operand, which IEEE sends to +infinity, is
never reached by the guarded code paths and is mapped to bottom. -/
def dSub (x y : Dbl) : Dbl :=
  WithBot.recBotCoe ⊥ (fun a => WithBot.recBotCoe ⊥ (fun b => fin (a - b)) y) x

theorem dSub_bot_left (y : Dbl) : dSub ⊥ y = ⊥ := by
  unfold dSub
  induction y using WithBot.recBotCoe <;> rfl

theorem dSub_fin_fin (a b : ℚ) : dSub (fin a) (fin b) = fin (a - b) := rfl

theorem dSub_self_fin (a : ℚ) : dSub (fin a) (fin a) = fin 0 := by
  rw [dSub_fin_fin, sub_self]

/-- The loop body of _logsumexp: sum += exp(array[i] - array_max), threading
(array, sum) with the array never written. -/
def lseBody (fexp : Dbl → Dbl) (array_max : Dbl) (st : List Dbl × Dbl) (i : Nat) :
    List Dbl × Dbl :=
  (st.1, st.2 + fexp (dSub (idx st.1 (i : Int)) array_max))

/-- _logsumexp: if size == 0 return -INFINITY; if array_max == -INFINITY
return -INFINITY; else sum exp(array[i] - array_max) from sum = 0.0 and
return array_max + log(sum).  The array is returned unchanged next to the
result: the loop reads but never writes it. -/
def logsumexp (fexp flog : Dbl → Dbl) (array : List Dbl) (size : Int)
    (array_max : Dbl) : List Dbl × Dbl :=
  if size = 0 then (array, ⊥)
  else if array_max = ⊥ then (array, ⊥)
  else
    ((((List.range size.toNat).foldl (lseBody fexp array_max) (array, fin 0))).1,
      array_max + flog ((List.range size.toNat).foldl (lseBody fexp array_max)
        (array, fin 0)).2)

/-- The Kahan loop of _kahan_summation as called by _logsumexp_kahan_inplace
on the exponentiated array, with the same four-operation recurrence carried
out on the extended values. -/
def kahanD (array : List Dbl) (size : Int) : Dbl :=
  ((List.range size.toNat).foldl
    (fun (st : Dbl × Dbl) (i : Nat) =>
      let loc := dSub (idx array (i : Int)) st.2
      let tmp := st.1 + loc
      (tmp, dSub (dSub tmp st.1) loc))
    (fin 0, fin 0)).1

/-- _logsumexp_kahan_inplace: same guards as _logsumexp, then the array is
overwritten in place with exp(array[i] - array_max) and the result is
array_max + log of the compensated sum of the overwritten array. -/
def logsumexp_kahan_inplace (fexp flog : Dbl → Dbl) (array : List Dbl) (size : Int)
    (array_max : Dbl) : List Dbl × Dbl :=
  if size = 0 then (array, ⊥)
  else if array_max = ⊥ then (array, ⊥)
  else
    ((List.range size.toNat).foldl
      (fun (a : List Dbl) (i : Nat) => setIdx a (i : Int) (fexp (dSub (idx a (i : Int)) array_max)))
      array,
      array_max + flog (kahanD ((List.range size.toNat).foldl
        (fun (a : List Dbl) (i : Nat) => setIdx a (i : Int) (fexp (dSub (idx a (i : Int)) array_max)))
        array) size))

/-- _logsumexp_sort_inplace: if size == 0 return -INFINITY; else sort the
array in place with _mixed_sort and delegate to _logsumexp with the last
(largest) element as the maximum. -/
def logsumexp_sort_inplace (fexp flog : Dbl → Dbl) (array : List Dbl)
    (size : Int) : List Dbl × Dbl :=
  if size = 0 then (array, ⊥)
  else
    logsumexp fexp flog (mixedSort array 0 (size - 1)) size
      (idx (mixedSort array 0 (size - 1)) (size - 1))

/-- _logsumexp_sort_kahan_inplace: as _logsumexp_sort_inplace but delegating
to the Kahan in-place variant. -/
def logsumexp_sort_kahan_inplace (fexp flog : Dbl → Dbl) (array : List Dbl)
    (size : Int) : List Dbl × Dbl :=
  if size = 0 then (array, ⊥)
  else
    logsumexp_kahan_inplace fexp flog (mixedSort array 0 (size - 1)) size
      (idx (mixedSort array 0 (size - 1)) (size - 1))

/-- _logsumexp_pair: both -INFINITY gives -INFINITY; otherwise the larger
operand is the base and log(1.0 + exp(smaller - larger)) is added, with the
b > a comparison deciding which operand is the base. -/
def logsumexp_pair (fexp flog : Dbl → Dbl) (a b : Dbl) : Dbl :=
  if a = ⊥ ∧ b = ⊥ then ⊥
  else if a < b then b + flog (fin 1 + fexp (dSub a b))
  else a + flog (fin 1 + fexp (dSub b a))

/-!
Break-point detector (_get_therm_state_break_points in _util.c).
-/

/-- The body of the detector loop for index i: if T_x[i] != K then K becomes
T_x[i] and i is appended to the written break points; state is (K, list). -/
def bpBody (T : List Int) (st : Int × List Int) (i : Nat) : Int × List Int :=
  if idx T (i : Int) ≠ st.1 then (idx T (i : Int), st.2 ++ [(i : Int)]) else st

/-- _get_therm_state_break_points: break_points[0] = 0 and K = T_x[0], then
for i from 1 to seq_length-1 every i with T_x[i] != K is recorded and K
updated; returns the written prefix of the output buffer and the count o. -/
def get_therm_state_break_points (T : List Int) (seq_length : Int) : List Int × Int :=
  (((List.range' 1 (seq_length.toNat - 1)).foldl (bpBody T) (idx T 0, [(0 : Int)])).2,
    ((((List.range' 1 (seq_length.toNat - 1)).foldl (bpBody T)
      (idx T 0, [(0 : Int)])).2.length : Int)))

/-- The specified output of the detector: index 0 followed by exactly the
ascending indices at which the label differs from its predecessor. -/
def breakPointsSpec (T : List Int) (seq_length : Int) : List Int :=
  (0 : Int) :: ((List.range' 1 (seq_length.toNat - 1)).filter
    (fun i : Nat => decide (idx T (i : Int) ≠ idx T ((i : Int) - 1)))).map
    (fun i : Nat => (i : Int))

/-- The detector loop with state (K, acc), entered at index start with K
holding the label of the previous position, appends exactly the indices at
which the label differs from its predecessor. -/
theorem bp_fold (T : List Int) :
    ∀ (cnt start : Nat) (K : Int) (acc : List Int), 1 ≤ start →
      K = idx T ((start : Int) - 1) →
      ((List.range' start cnt).foldl (bpBody T) (K, acc)).2
        = acc ++ ((List.range' start cnt).filter
            (fun i : Nat => decide (idx T (i : Int) ≠ idx T ((i : Int) - 1)))).map
            (fun i : Nat => (i : Int)) := by
  intro cnt
  induction cnt with
  | zero =>
    intro start K acc h1 h2
    simp
  | succ n ih =>
    intro start K acc h1 h2
    rw [List.range'_succ, List.foldl_cons, List.filter_cons]
    have hcast : ((start + 1 : Nat) : Int) - 1 = (start : Int) := by push_cast; ring
    by_cases hne : idx T (start : Int) ≠ idx T ((start : Int) - 1)
    · have hbody : bpBody T (K, acc) start = (idx T (start : Int), acc ++ [(start : Int)]) := by
        unfold bpBody
        rw [if_pos (h2 ▸ hne)]
      rw [hbody, if_pos (by simpa using hne),
        ih (start + 1) (idx T (start : Int)) (acc ++ [(start : Int)]) (by omega)
          (by rw [hcast]), List.map_cons, List.append_assoc]
      rfl
    · have heq : idx T (start : Int) = idx T ((start : Int) - 1) := not_not.mp hne
      have hbody : bpBody T (K, acc) start = (K, acc) := by
        unfold bpBody
        rw [if_neg (h2 ▸ hne)]
      rw [hbody, if_neg (by simpa using hne),
        ih (start + 1) K acc (by omega) (by rw [hcast, heq, h2])]

/-!
Transition-matrix renormalization (_renormalize_transition_matrix in
_util.c), over the exact rationals.
-/

/-- First pass of _renormalize_transition_matrix, one row: copy row i of p
into the scratch buffer, sort the scratch buffer, Kahan-sum it, and update
max_sum with (max_sum > sum) ? max_sum : sum.  State is (scratch, max_sum). -/
def firstPassBody (p : List ℚ) (n : Int) (st : List ℚ × ℚ) (i : Nat) : List ℚ × ℚ :=
  let s1 := (List.range n.toNat).foldl
    (fun (s : List ℚ) (j : Nat) => setIdx s (j : Int) (idx p ((i : Int) * n + (j : Int)))) st.1
  let s2 := mixedSort s1 0 (n - 1)
  let sum := (kahan_summation s2 n).2
  (s2, if st.2 > sum then st.2 else sum)

/-- The whole first pass, over all rows, starting from max_sum = 0.0. -/
def firstPass (p : List ℚ) (n : Int) (scratch : List ℚ) : List ℚ × ℚ :=
  (List.range n.toNat).foldl (firstPassBody p n) (scratch, 0)

/-- One j step of the second pass: divide p[i*n+j] by max_sum, then write
the scratch cell with index i - the index used by the C code - either to 0.0
on the diagonal or to the freshly divided p[i*n+j].  State is (p, scratch). -/
def renormRowBody (n : Int) (max_sum : ℚ) (i : Nat) (st : List ℚ × List ℚ) (j : Nat) :
    List ℚ × List ℚ :=
  let p1 := setIdx st.1 ((i : Int) * n + (j : Int))
    (idx st.1 ((i : Int) * n + (j : Int)) / max_sum)
  let s1 := if (i : Int) = (j : Int) then setIdx st.2 (i : Int) 0
    else setIdx st.2 (i : Int) (idx p1 ((i : Int) * n + (j : Int)))
  (p1, s1)

/-- One row of the second pass: the j loop, then sort the scratch buffer and
set the diagonal entry p[i*n+i] to 1.0 minus its Kahan sum. -/
def renormRow (n : Int) (max_sum : ℚ) (st : List ℚ × List ℚ) (i : Nat) :
    List ℚ × List ℚ :=
  let st2 := (List.range n.toNat).foldl (renormRowBody n max_sum i) st
  let s2 := mixedSort st2.2 0 (n - 1)
  (setIdx st2.1 ((i : Int) * n + (i : Int)) (1 - (kahan_summation s2 n).2), s2)

/-- _renormalize_transition_matrix: if 0.0 >= max_sum after the first pass
the function returns with p untouched (the first pass writes only the
scratch buffer); otherwise the second pass runs over all rows. -/
def renormalize_transition_matrix (p : List ℚ) (n : Int) (scratch : List ℚ) :
    List ℚ × List ℚ :=
  if 0 ≥ (firstPass p n scratch).2 then (p, (firstPass p n scratch).1)
  else (List.range n.toNat).foldl (renormRow n (firstPass p n scratch).2)
    (p, (firstPass p n scratch).1)

set_option maxRecDepth 8000 in
/-- Closed-form evaluation of the renormalizer on the 2 by 2 example matrix
[[0.5, 0.5], [0.3, 0.3]] (row-major, exact rationals), scratch buffer [0, 0]. -/
theorem renormalize_eval_2x2 :
    renormalize_transition_matrix [1/2, 1/2, 3/10, 3/10] 2 [0, 0]
      = ([1/5, 1/2, 3/10, 7/10], [0, 3/10]) := by
  have hr2 : List.range 2 = [0, 1] := rfl
  have hr2i : List.range (Int.toNat 2) = [0, 1] := rfl
  have e21 : (2 : Int) - 1 = 1 := by norm_num
  have t0 : Int.toNat 0 = 0 := rfl
  have t1 : Int.toNat 1 = 1 := rfl
  have t2 : Int.toNat 2 = 2 := rfl
  have t3 : Int.toNat 3 = 3 := rfl
  have hA : firstPassBody [1/2, 1/2, 3/10, 3/10] 2 ([0, 0], 0) 0 = ([1/2, 1/2], 1) := by
    simp only [firstPassBody, e21]
    rw [mixedSort_pair_list]
    · norm_num [idx, setIdx, kahan_summation, kahanBody, hr2, t0, t1, t2, t3]
    · norm_num [idx, setIdx, length_setIdx, hr2, t0, t1, t2, t3]
  have hB : firstPassBody [1/2, 1/2, 3/10, 3/10] 2 ([1/2, 1/2], 1) 1 = ([3/10, 3/10], 1) := by
    simp only [firstPassBody, e21]
    rw [mixedSort_pair_list]
    · norm_num [idx, setIdx, kahan_summation, kahanBody, hr2, t0, t1, t2, t3]
    · norm_num [idx, setIdx, length_setIdx, hr2, t0, t1, t2, t3]
  have hC : firstPass [1/2, 1/2, 3/10, 3/10] 2 [0, 0] = ([3/10, 3/10], 1) := by
    unfold firstPass
    rw [hr2i, List.foldl_cons, List.foldl_cons, List.foldl_nil, hA, hB]
  have hD : renormRow 2 1 ([1/2, 1/2, 3/10, 3/10], [3/10, 3/10]) 0
      = ([1/5, 1/2, 3/10, 3/10], [3/10, 1/2]) := by
    simp only [renormRow, renormRowBody, e21, hr2i]
    rw [mixedSort_pair_list]
    · norm_num [idx, setIdx, kahan_summation, kahanBody, renormRowBody, hr2, t0, t1, t2, t3]
    · norm_num [idx, setIdx, length_setIdx, renormRowBody, hr2, t0, t1, t2, t3]
  have hE : renormRow 2 1 ([1/5, 1/2, 3/10, 3/10], [3/10, 1/2]) 1
      = ([1/5, 1/2, 3/10, 7/10], [0, 3/10]) := by
    simp only [renormRow, renormRowBody, e21, hr2i]
    rw [mixedSort_pair_list]
    · norm_num [idx, setIdx, kahan_summation, kahanBody, renormRowBody, hr2, t0, t1, t2, t3]
    · norm_num [idx, setIdx, length_setIdx, renormRowBody, hr2, t0, t1, t2, t3]
  unfold renormalize_transition_matrix
  rw [hC]
  rw [if_neg (by norm_num)]
  rw [hr2i, List.foldl_cons, List.foldl_cons, List.foldl_nil, hD, hE]

/-!
Helper lemmas for the claim theorems.
-/

theorem idx_mem {α : Type} [Inhabited α] (a : List α) (k : Int)
    (h0 : 0 ≤ k) (hlen : k < (a.length : Int)) : idx a k ∈ a := by
  unfold idx
  rw [dif_pos ⟨h0, by omega⟩]
  exact List.get_mem a k.toNat (by omega)

theorem lse_foldl_fst (fexp : Dbl → Dbl) (m : Dbl) (ns : List Nat)
    (st : List Dbl × Dbl) : (ns.foldl (lseBody fexp m) st).1 = st.1 := by
  induction ns generalizing st with
  | nil => rfl
  | cons n t ih => rw [List.foldl_cons, ih]; rfl

theorem idx_replicate (n : Nat) (c : Int) (k : Int) (h0 : 0 ≤ k)
    (hlen : k < (n : Int)) : idx (List.replicate n c) k = c := by
  unfold idx
  rw [dif_pos ⟨h0, by simp; omega⟩]
  simp [List.get_replicate]

/-!
Claim theorems.
-/

/-- C10: the batch Kahan sum of an empty input is the additive identity:
for every array, _kahan_summation(array, 0) returns exactly 0.0. -/
theorem C10_kahan_empty_sum (a : List ℚ) : (kahan_summation a 0).2 = 0 := rfl

/-- C9: _kahan_summation and _logsumexp leave every element of the input
array unchanged: the array component each returns is the input list itself,
for every array, size, array_max and exp/log interpretation, in contrast to
the in-place variants. -/
theorem C9_kahan_logsumexp_non_mutating :
    (∀ (a : List ℚ) (size : Int), (kahan_summation a size).1 = a) ∧
    (∀ (fexp flog : Dbl → Dbl) (a : List Dbl) (size : Int) (m : Dbl),
      (logsumexp fexp flog a size m).1 = a) := by
  constructor
  · exact kahan_summation_fst
  · intro fexp flog a size m
    unfold logsumexp
    by_cases hs : size = 0
    · rw [if_pos hs]
    · rw [if_neg hs]
      by_cases hm : m = ⊥
      · rw [if_pos hm]
      · rw [if_neg hm]
        exact lse_foldl_fst fexp m (List.range size.toNat) (a, fin 0)

/-- C4: feeding the values array[0..size-1] in the same order through the
step form _kahan_summation_step, iterated from sum = 0 and err = 0 (the
cells loc and tmp may start with any contents, as the step overwrites them
before reading), produces exactly the sum of the batch form
_kahan_summation: both perform loc = value - err; tmp = sum + loc;
err = (tmp - sum) - loc; sum = tmp per element, so in the exact model of
double arithmetic the results are identical. -/
theorem C4_kahan_batch_step_identical (a : List ℚ) (size : Int) (lc tp : ℚ) :
    (((List.range size.toNat).map (fun i : Nat => idx a (i : Int))).foldl
      (fun st v => kahan_summation_step v st.1 st.2.1 st.2.2.1 st.2.2.2)
      (0, 0, lc, tp)).1
      = (kahan_summation a size).2 := by
  unfold kahan_summation
  exact kahan_step_fold a (List.range size.toNat) 0 0 lc tp

/-- C8: when the maximum Kahan-compensated row sum computed by the first
pass over sorted row copies is at most 0, _renormalize_transition_matrix
returns with the matrix p completely unchanged: a silent no-op, with no
error signalled. -/
theorem C8_renormalize_silent_no_op (p : List ℚ) (n : Int) (scratch : List ℚ)
    (h : (firstPass p n scratch).2 ≤ 0) :
    (renormalize_transition_matrix p n scratch).1 = p := by
  unfold renormalize_transition_matrix
  rw [if_pos h]

set_option maxRecDepth 8000 in
/-- Closed evaluation of the first pass on the all-zero 2 by 2 matrix. -/
theorem firstPass_zero_eval : firstPass [0, 0, 0, 0] 2 [0, 0] = ([0, 0], 0) := by
  have hr2 : List.range 2 = [0, 1] := rfl
  have hr2i : List.range (Int.toNat 2) = [0, 1] := rfl
  have e21 : (2 : Int) - 1 = 1 := by norm_num
  have t0 : Int.toNat 0 = 0 := rfl
  have t1 : Int.toNat 1 = 1 := rfl
  have t2 : Int.toNat 2 = 2 := rfl
  have t3 : Int.toNat 3 = 3 := rfl
  have hA : firstPassBody [0, 0, 0, 0] 2 ([0, 0], 0) 0 = ([0, 0], 0) := by
    simp only [firstPassBody, e21]
    rw [mixedSort_pair_list]
    · norm_num [idx, setIdx, kahan_summation, kahanBody, hr2, t0, t1, t2, t3]
    · norm_num [idx, setIdx, length_setIdx, hr2, t0, t1, t2, t3]
  have hB : firstPassBody [0, 0, 0, 0] 2 ([0, 0], 0) 1 = ([0, 0], 0) := by
    simp only [firstPassBody, e21]
    rw [mixedSort_pair_list]
    · norm_num [idx, setIdx, kahan_summation, kahanBody, hr2, t0, t1, t2, t3]
    · norm_num [idx, setIdx, length_setIdx, hr2, t0, t1, t2, t3]
  unfold firstPass
  rw [hr2i, List.foldl_cons, List.foldl_cons, List.foldl_nil, hA, hB]

/-- Witness for C8 at the all-zero 2 by 2 matrix. -/
theorem C8_witness :
    (renormalize_transition_matrix [0, 0, 0, 0] 2 [0, 0]).1 = [0, 0, 0, 0] :=
  C8_renormalize_silent_no_op [0, 0, 0, 0] 2 [0, 0]
    (by rw [firstPass_zero_eval])

/-- C1: the specification claims _renormalize_transition_matrix makes every
row of the matrix sum to exactly 1.0 (the diagonal set to 1.0 minus the
Kahan sum of the row's off-diagonal entries), and in particular that
[[0.5, 0.5], [0.3, 0.3]] yields rows summing to 1.0 within 1e-12 after one
call.  The code violates this: the second pass writes scratch_M[i] inside
its j loop instead of scratch_M[j], so the off-diagonal copy never fills
the scratch row, and on this matrix row 0 comes out as [0.2, 0.5] with sum
0.7.  This theorem evaluates the embedded code at that failing input. -/
theorem C1_renormalize_row_sum_violated :
    idx (renormalize_transition_matrix [1/2, 1/2, 3/10, 3/10] 2 [0, 0]).1 0
        + idx (renormalize_transition_matrix [1/2, 1/2, 3/10, 3/10] 2 [0, 0]).1 1
      = 7/10
    ∧ ¬ |(7 : ℚ)/10 - 1| ≤ 1/1000000000000 := by
  rw [renormalize_eval_2x2]
  have habs : |(7 : ℚ)/10 - 1| = 3/10 := by
    rw [abs_sub_comm, abs_of_pos] <;> norm_num
  refine ⟨?_, by rw [habs]; norm_num⟩
  show (1 : ℚ)/5 + 1/2 = 7/10
  norm_num

/-- C2 counterexample: the inclusive range [0, 25] holds 26 elements, more
than 25, yet the branch guard of _mixed_sort still selects the insertion
branch rather than quicksort. -/
theorem C2_counterexample_26_elements :
    usesQuicksort 0 25 = false ∧ (25 : Int) - 0 + 1 = 26 ∧ (26 : Int) > 25 :=
  ⟨rfl, by norm_num, by norm_num⟩

/-- C2 (amended): _mixed_sort selects its algorithm by range size with the
threshold one element higher than claimed: the quicksort branch is taken
exactly for ranges of at least 27 elements (R - L > 25), in which case the
function partitions with pivot array[R] and recurses on both partitions,
and every range of at most 26 elements is sorted by insertion sort. -/
theorem C2_mixed_sort_branch_selection {α : Type} [Inhabited α] [LinearOrder α]
    (L R : Int) :
    (usesQuicksort L R = true ↔ 27 ≤ R - L + 1) ∧
    (usesQuicksort L R = false →
      ∀ a : List α, mixedSort a L R = insertionSortRange a L R) ∧
    (usesQuicksort L R = true → ∀ a : List α,
      mixedSort a L R =
        mixedSort (mixedSort (partition a L R).1 L ((partition a L R).2 - 1))
          ((partition a L R).2 + 1) R) := by
  refine ⟨?_, ?_, ?_⟩
  · simp only [usesQuicksort, decide_eq_true_eq]
    omega
  · intro h a
    rw [mixedSort, dif_neg (by simp [h])]
  · intro h a
    rw [mixedSort, dif_pos h]

/-- Witness for C2 at a 3-element range (insertion branch taken) and at a
27-element range (quicksort branch taken). -/
theorem C2_witness :
    mixedSort ([3, 1, 2] : List ℚ) 0 10 = insertionSortRange [3, 1, 2] 0 10 ∧
    mixedSort ((List.range 27).map (fun n : Nat => (n : ℚ))) 0 26
      = mixedSort
          (mixedSort (partition ((List.range 27).map (fun n : Nat => (n : ℚ))) 0 26).1 0
            ((partition ((List.range 27).map (fun n : Nat => (n : ℚ))) 0 26).2 - 1))
          ((partition ((List.range 27).map (fun n : Nat => (n : ℚ))) 0 26).2 + 1) 26 :=
  ⟨(@C2_mixed_sort_branch_selection ℚ _ _ 0 10).2.1 rfl [3, 1, 2],
   (@C2_mixed_sort_branch_selection ℚ _ _ 0 26).2.2 rfl
     ((List.range 27).map (fun n : Nat => (n : ℚ)))⟩

/-- C3: for every array over a linear order and every valid inclusive range
[L, R], after _mixed_sort the positions L..R hold a permutation (an equal
multiset) of the original values at those positions, in non-decreasing
order, and every position outside [L, R] is untouched - the statement
covers the insertion branch (at most 26 elements) and the quicksort branch
alike; and zero- and one-element ranges (R <= L) return the array
unchanged. -/
theorem C3_mixed_sort_sorts {α : Type} [Inhabited α] [LinearOrder α]
    (a : List α) (L R : Int) (hL0 : 0 ≤ L) (hRlen : R < (a.length : Int)) :
    (msl (mixedSort a L R) L R = msl a L R ∧
     sortedOn (mixedSort a L R) L R ∧
     (∀ k, k < L ∨ R < k → idx (mixedSort a L R) k = idx a k)) ∧
    (R ≤ L → mixedSort a L R = a) := by
  obtain ⟨m1, m2, m3, m4⟩ := mixedSort_spec a L R hL0 hRlen
  exact ⟨⟨m2, m3, m4⟩, mixedSort_no_op a L R⟩

/-- Witness for C3 at a concrete 3-element array over the rationals. -/
theorem C3_witness :
    (msl (mixedSort ([2, 1, 1] : List ℚ) 0 2) 0 2 = msl ([2, 1, 1] : List ℚ) 0 2 ∧
     sortedOn (mixedSort ([2, 1, 1] : List ℚ) 0 2) 0 2 ∧
     (∀ k, k < 0 ∨ 2 < k →
       idx (mixedSort ([2, 1, 1] : List ℚ) 0 2) k = idx ([2, 1, 1] : List ℚ) k)) ∧
    ((2 : Int) ≤ 0 → mixedSort ([2, 1, 1] : List ℚ) 0 2 = [2, 1, 1]) :=
  C3_mixed_sort_sorts [2, 1, 1] 0 2 (by norm_num) (by norm_num)

/-- The last cell of the sorted array is bottom when every element of the
input is bottom. -/
theorem mixedSort_last_bot (a : List Dbl) (ha : a ≠ [])
    (hall : ∀ x ∈ a, x = ⊥) :
    idx (mixedSort a 0 ((a.length : Int) - 1)) ((a.length : Int) - 1) = ⊥ := by
  have hpos : 0 < a.length := List.length_pos.mpr ha
  obtain ⟨m1, m2, m3, m4⟩ := mixedSort_spec a 0 ((a.length : Int) - 1) le_rfl (by omega)
  have hmem : idx (mixedSort a 0 ((a.length : Int) - 1)) ((a.length : Int) - 1)
      ∈ msl (mixedSort a 0 ((a.length : Int) - 1)) 0 ((a.length : Int) - 1) :=
    idx_mem_msl _ 0 _ _ (by omega) le_rfl
  rw [m2] at hmem
  obtain ⟨k, hk1, hk2, hk3⟩ := (mem_msl a 0 ((a.length : Int) - 1) _).mp hmem
  rw [← hk3]
  exact hall _ (idx_mem a k hk1 (by omega))

/-- C5: every log-sum-exp variant resolves the degenerate inputs to the
-infinity sentinel: size 0 gives -infinity, and a maximum of -infinity
(the array_max argument for _logsumexp and _logsumexp_kahan_inplace, the
largest element - here expressed as all elements being -infinity - for the
two sorting variants, and both operands for _logsumexp_pair) also gives
-infinity; all five embeddings are total functions, so no error is
signalled on these inputs. -/
theorem C5_logsumexp_degenerate (fexp flog : Dbl → Dbl) :
    (∀ (a : List Dbl) (m : Dbl), (logsumexp fexp flog a 0 m).2 = ⊥) ∧
    (∀ (a : List Dbl) (s : Int), (logsumexp fexp flog a s ⊥).2 = ⊥) ∧
    (∀ (a : List Dbl) (m : Dbl), (logsumexp_kahan_inplace fexp flog a 0 m).2 = ⊥) ∧
    (∀ (a : List Dbl) (s : Int), (logsumexp_kahan_inplace fexp flog a s ⊥).2 = ⊥) ∧
    (∀ a : List Dbl, (logsumexp_sort_inplace fexp flog a 0).2 = ⊥) ∧
    (∀ a : List Dbl, a ≠ [] → (∀ x ∈ a, x = ⊥) →
      (logsumexp_sort_inplace fexp flog a (a.length : Int)).2 = ⊥) ∧
    (∀ a : List Dbl, (logsumexp_sort_kahan_inplace fexp flog a 0).2 = ⊥) ∧
    (∀ a : List Dbl, a ≠ [] → (∀ x ∈ a, x = ⊥) →
      (logsumexp_sort_kahan_inplace fexp flog a (a.length : Int)).2 = ⊥) ∧
    logsumexp_pair fexp flog ⊥ ⊥ = ⊥ := by
  have hszero : ∀ a : List Dbl, a ≠ [] → (∀ x ∈ a, x = ⊥) →
      ¬ ((a.length : Int) = 0) := by
    intro a ha _ hc
    have : 0 < a.length := List.length_pos.mpr ha
    omega
  refine ⟨?_, ?_, ?_, ?_, ?_, ?_, ?_, ?_, ?_⟩
  · intro a m
    rw [logsumexp, if_pos rfl]
  · intro a s
    by_cases hs : s = 0
    · rw [logsumexp, if_pos hs]
    · rw [logsumexp, if_neg hs, if_pos rfl]
  · intro a m
    rw [logsumexp_kahan_inplace, if_pos rfl]
  · intro a s
    by_cases hs : s = 0
    · rw [logsumexp_kahan_inplace, if_pos hs]
    · rw [logsumexp_kahan_inplace, if_neg hs, if_pos rfl]
  · intro a
    rw [logsumexp_sort_inplace, if_pos rfl]
  · intro a ha hall
    have h0 : ¬ ((a.length : Int) = 0) := hszero a ha hall
    rw [logsumexp_sort_inplace, if_neg h0, mixedSort_last_bot a ha hall,
      logsumexp, if_neg h0, if_pos rfl]
  · intro a
    rw [logsumexp_sort_kahan_inplace, if_pos rfl]
  · intro a ha hall
    have h0 : ¬ ((a.length : Int) = 0) := hszero a ha hall
    rw [logsumexp_sort_kahan_inplace, if_neg h0, mixedSort_last_bot a ha hall,
      logsumexp_kahan_inplace, if_neg h0, if_pos rfl]
  · rw [logsumexp_pair, if_pos ⟨rfl, rfl⟩]

/-- Witness for C5 at concrete degenerate inputs, with the identity function
standing in for both exp and log. -/
theorem C5_witness :
    (logsumexp id id ([⊥] : List Dbl) 0 ⊥).2 = ⊥ ∧
    (logsumexp_sort_inplace id id ([⊥, ⊥] : List Dbl)
      ((([⊥, ⊥] : List Dbl).length : Int))).2 = ⊥ ∧
    logsumexp_pair id id ⊥ ⊥ = ⊥ :=
  ⟨(C5_logsumexp_degenerate id id).1 [⊥] ⊥,
   (C5_logsumexp_degenerate id id).2.2.2.2.2.1 [⊥, ⊥] (by simp) (by simp),
   (C5_logsumexp_degenerate id id).2.2.2.2.2.2.2.2⟩

/-- Correctness of the break-point detector for any labels of length
N >= 1: the written output equals the specified list, the returned count is
its length, the count is at most N, and the output is strictly ascending. -/
theorem break_points_correct (T : List Int) (N : Int) (hN : 1 ≤ N) :
    (get_therm_state_break_points T N).1 = breakPointsSpec T N ∧
    (get_therm_state_break_points T N).2
      = ((get_therm_state_break_points T N).1.length : Int) ∧
    (get_therm_state_break_points T N).2 ≤ N ∧
    (get_therm_state_break_points T N).1.Pairwise (· < ·) := by
  have hfst : (get_therm_state_break_points T N).1 = breakPointsSpec T N := by
    unfold get_therm_state_break_points breakPointsSpec
    rw [bp_fold T (N.toNat - 1) 1 (idx T 0) [(0 : Int)] le_rfl (by norm_num)]
    rfl
  refine ⟨hfst, rfl, ?_, ?_⟩
  · show ((get_therm_state_break_points T N).1.length : Int) ≤ N
    rw [hfst]
    unfold breakPointsSpec
    have hfil := List.length_filter_le
      (fun i : Nat => decide (idx T (i : Int) ≠ idx T ((i : Int) - 1)))
      (List.range' 1 (N.toNat - 1))
    rw [List.length_range'] at hfil
    simp only [List.length_cons, List.length_map]
    omega
  · rw [hfst]
    unfold breakPointsSpec
    refine List.Pairwise.cons ?_ ?_
    · intro b hb
      obtain ⟨i, hi, rfl⟩ := List.mem_map.mp hb
      have := List.mem_range'.mp (List.mem_of_mem_filter hi)
      omega
    · refine List.Pairwise.map _ (fun x y h => by exact_mod_cast h) ?_
      exact (List.pairwise_lt_range' 1 (N.toNat - 1)).filter _

/-- C6: for every integer label sequence of length N >= 1, the detector
writes exactly the ascending indices at which the label differs from its
predecessor, index 0 first, and returns their count, which is at most N;
on [0,0,0,1,1,2,2,2,2] it writes [0,3,5] with count 3, and on any constant
sequence of length N it writes [0] with count 1. -/
theorem C6_break_points (T : List Int) (N : Int) (hN : 1 ≤ N) :
    ((get_therm_state_break_points T N).1 = breakPointsSpec T N ∧
     (get_therm_state_break_points T N).2
       = ((get_therm_state_break_points T N).1.length : Int) ∧
     (get_therm_state_break_points T N).2 ≤ N ∧
     (get_therm_state_break_points T N).1.Pairwise (· < ·)) ∧
    get_therm_state_break_points [0, 0, 0, 1, 1, 2, 2, 2, 2] 9 = ([0, 3, 5], 3) ∧
    (∀ c : Int, get_therm_state_break_points (List.replicate N.toNat c) N = ([0], 1)) := by
  refine ⟨break_points_correct T N hN, by decide, ?_⟩
  intro c
  obtain ⟨h1, h2, _, _⟩ := break_points_correct (List.replicate N.toNat c) N hN
  have hspec : breakPointsSpec (List.replicate N.toNat c) N = [0] := by
    unfold breakPointsSpec
    have hnil : (List.range' 1 (N.toNat - 1)).filter
        (fun i : Nat => decide (idx (List.replicate N.toNat c) (i : Int)
          ≠ idx (List.replicate N.toNat c) ((i : Int) - 1))) = [] := by
      rw [List.filter_eq_nil_iff]
      intro i hi
      have hmem := List.mem_range'.mp hi
      have hub : i < N.toNat := by omega
      have h1v : idx (List.replicate N.toNat c) (i : Int) = c :=
        idx_replicate N.toNat c i (by omega) (by exact_mod_cast hub)
      have h2v : idx (List.replicate N.toNat c) ((i : Int) - 1) = c :=
        idx_replicate N.toNat c ((i : Int) - 1) (by omega) (by omega)
      simp [h1v, h2v]
    rw [hnil]
    rfl
  have hout : (get_therm_state_break_points (List.replicate N.toNat c) N).1 = [0] :=
    h1.trans hspec
  refine Prod.ext_iff.mpr ⟨hout, ?_⟩
  rw [h2, hout]
  rfl

/-- Witness for C6 at the nine-element example labels. -/
theorem C6_witness :
    ((get_therm_state_break_points [0, 0, 0, 1, 1, 2, 2, 2, 2] 9).1
       = breakPointsSpec [0, 0, 0, 1, 1, 2, 2, 2, 2] 9 ∧
     (get_therm_state_break_points [0, 0, 0, 1, 1, 2, 2, 2, 2] 9).2
       = (((get_therm_state_break_points [0, 0, 0, 1, 1, 2, 2, 2, 2] 9).1.length : Int)) ∧
     (get_therm_state_break_points [0, 0, 0, 1, 1, 2, 2, 2, 2] 9).2 ≤ 9 ∧
     (get_therm_state_break_points [0, 0, 0, 1, 1, 2, 2, 2, 2] 9).1.Pairwise (· < ·)) ∧
    get_therm_state_break_points [0, 0, 0, 1, 1, 2, 2, 2, 2] 9 = ([0, 3, 5], 3) ∧
    (∀ c : Int, get_therm_state_break_points (List.replicate (9 : Int).toNat c) 9
      = ([0], 1)) :=
  C6_break_points [0, 0, 0, 1, 1, 2, 2, 2, 2] 9 (by norm_num)

theorem dSub_coe_coe (a b : ℚ) : dSub (a : Dbl) (b : Dbl) = ((a - b : ℚ) : Dbl) := rfl

theorem dSub_coe_self (a : ℚ) : dSub (a : Dbl) (a : Dbl) = ((0 : ℚ) : Dbl) := by
  rw [dSub_coe_coe, sub_self]

theorem dbl_sum_arrange (X : Dbl) :
    (((0 : ℚ) : Dbl) + X) + ((1 : ℚ) : Dbl) = ((1 : ℚ) : Dbl) + X := by
  induction X using WithBot.recBotCoe with
  | bot => rw [WithBot.add_bot, WithBot.bot_add, WithBot.add_bot]
  | coe x =>
    rw [← WithBot.coe_add, ← WithBot.coe_add, ← WithBot.coe_add]
    rw [WithBot.coe_inj]
    ring

theorem dbl_one_absorb (X : Dbl) :
    (((0 : ℚ) : Dbl) + ((1 : ℚ) : Dbl)) + X = ((1 : ℚ) : Dbl) + X := by
  rw [← WithBot.coe_add, zero_add]

/-- C7: _logsumexp_pair returns -infinity when both operands are -infinity,
and otherwise returns larger + log(1.0 + exp(smaller - larger)), the larger
operand being the maximum of the two; and for finite operands it agrees
exactly with _logsumexp on the two-element array [a, b] with the maximum of
the two as array_max, for any interpretation of exp and log with
exp(0) = 1 - exact agreement is within any tolerance. -/
theorem C7_logsumexp_pair_closed_form (fexp flog : Dbl → Dbl) (a b : Dbl) :
    (a = ⊥ ∧ b = ⊥ → logsumexp_pair fexp flog a b = ⊥) ∧
    (¬ (a = ⊥ ∧ b = ⊥) →
      logsumexp_pair fexp flog a b
        = max a b + flog (((1 : ℚ) : Dbl) + fexp (dSub (min a b) (max a b)))) ∧
    (a ≠ ⊥ → b ≠ ⊥ → fexp (((0 : ℚ) : Dbl)) = ((1 : ℚ) : Dbl) →
      logsumexp_pair fexp flog a b = (logsumexp fexp flog [a, b] 2 (max a b)).2) := by
  refine ⟨?_, ?_, ?_⟩
  · intro h
    rw [logsumexp_pair, if_pos h]
  · intro h
    rw [logsumexp_pair, if_neg h]
    by_cases hab : a < b
    · rw [if_pos hab, max_eq_right hab.le, min_eq_left hab.le]
    · rw [if_neg hab, max_eq_left (le_of_not_lt hab), min_eq_right (le_of_not_lt hab)]
  · intro ha hb hexp
    obtain ⟨qa, rfl⟩ := WithBot.ne_bot_iff_exists.mp ha
    obtain ⟨qb, rfl⟩ := WithBot.ne_bot_iff_exists.mp hb
    have h2 : ¬ ((2 : Int) = 0) := by norm_num
    have hmx : max ((qa : Dbl)) ((qb : Dbl)) = ((max qa qb : ℚ) : Dbl) :=
      (WithBot.coe_max qa qb).symm
    rw [logsumexp, if_neg h2, hmx, if_neg WithBot.coe_ne_bot]
    rw [show List.range (Int.toNat 2) = [0, 1] from rfl, List.foldl_cons,
      List.foldl_cons, List.foldl_nil]
    show logsumexp_pair fexp flog (qa : Dbl) (qb : Dbl)
      = ((max qa qb : ℚ) : Dbl)
        + flog ((((((0 : ℚ) : Dbl)) + fexp (dSub (qa : Dbl) ((max qa qb : ℚ) : Dbl)))
            + fexp (dSub (qb : Dbl) ((max qa qb : ℚ) : Dbl))))
    rw [logsumexp_pair, if_neg (by simp)]
    by_cases hab : qa < qb
    · rw [if_pos (WithBot.coe_lt_coe.mpr hab), max_eq_right hab.le]
      rw [dSub_coe_self, hexp, dbl_sum_arrange]
    · rw [if_neg (fun hc => hab (WithBot.coe_lt_coe.mp hc)),
        max_eq_left (le_of_not_lt hab)]
      rw [dSub_coe_self, hexp, dbl_one_absorb]

/-- Witness for C7 at finite operands 0 and 0, with exp interpreted as the
constant-one function and log as the identity. -/
theorem C7_witness :
    logsumexp_pair (fun x => ((1 : ℚ) : Dbl)) id ((0 : ℚ) : Dbl) ((0 : ℚ) : Dbl)
        = max ((0 : ℚ) : Dbl) ((0 : ℚ) : Dbl)
          + id (((1 : ℚ) : Dbl)
            + (fun x => ((1 : ℚ) : Dbl))
              (dSub (min ((0 : ℚ) : Dbl) ((0 : ℚ) : Dbl))
                (max ((0 : ℚ) : Dbl) ((0 : ℚ) : Dbl)))) ∧
    logsumexp_pair (fun x => ((1 : ℚ) : Dbl)) id ((0 : ℚ) : Dbl) ((0 : ℚ) : Dbl)
        = (logsumexp (fun x => ((1 : ℚ) : Dbl)) id
            [((0 : ℚ) : Dbl), ((0 : ℚ) : Dbl)] 2
            (max ((0 : ℚ) : Dbl) ((0 : ℚ) : Dbl))).2 :=
  ⟨(C7_logsumexp_pair_closed_form (fun x => ((1 : ℚ) : Dbl)) id
      ((0 : ℚ) : Dbl) ((0 : ℚ) : Dbl)).2.1 (by simp),
   (C7_logsumexp_pair_closed_form (fun x => ((1 : ℚ) : Dbl)) id
      ((0 : ℚ) : Dbl) ((0 : ℚ) : Dbl)).2.2 WithBot.coe_ne_bot WithBot.coe_ne_bot rfl⟩

end Thermo
